import Mathlib

/-!
Verification of the storage-engine contract and log-entry data model of the
Xline persistence layer (`src/engine/src/engine_api.rs`, `src/curp/src/log_entry.rs`).

Keys and values are byte vectors (`Vec<u8>` in the source), modelled as `List Nat`.
Table names are `&'static str`, modelled as `String`.

The repository's `src/` holds only the `StorageEngine` trait declaration and the
`WriteOperation` / `LogEntry` data types; the concrete engine implementation
(the in-memory reference engine) and the `EngineError` type live in files not
present under `src/`, so those parts are modelled from the spec and from the
doc comments on the trait, as noted on each definition.
-/

set_option autoImplicit false

abbrev Key := List Nat
abbrev Value := List Nat

/-- Modelled from the spec: the error taxonomy of `src/engine/src/error.rs` is not
under `src/`; per §7 of the spec and the doc comments on `StorageEngine`, requests
naming an undeclared table fail with `TableNotFound`, and snapshot/storage failures
are reported as `UnderlyingError` (the doc comments on `snapshot`/`apply_snapshot`
name only `UnderlyingError`). -/
inductive EngineError where
  | tableNotFound : EngineError
  | underlyingError : EngineError
deriving DecidableEq, Repr

/-- Embeds `WriteOperation` from `src/engine/src/engine_api.rs`: a closed set of
table-scoped mutation intents (`Put`, `Delete`, `DeleteRange`). -/
inductive WriteOperation where
  | Put (table : String) (key : Key) (value : Value)
  | Delete (table : String) (key : Key)
  | DeleteRange (table : String) (fr : Key) (toK : Key)
deriving DecidableEq, Repr

/-- The table name an operation references. -/
def WriteOperation.table : WriteOperation → String
  | .Put t _ _ => t
  | .Delete t _ => t
  | .DeleteRange t _ _ => t

/-- Lexicographic strict order on byte vectors, as `Ord` on `Vec<u8>` in Rust. -/
def keyLt : Key → Key → Bool
  | [], [] => false
  | [], _ :: _ => true
  | _ :: _, [] => false
  | a :: as, b :: bs => if a < b then true else if b < a then false else keyLt as bs

/-- Comparison `a ≤ b` on byte vectors, derived from `keyLt`. -/
def keyLe (a b : Key) : Bool := !(keyLt b a)

/-- Membership of `k` in the half-open interval `[fr, toK)`, the range removed by
`DeleteRange` per its doc comment in `engine_api.rs`. -/
def inRange (fr toK k : Key) : Bool := keyLe fr k && keyLt k toK

/-- One table's contents: an association list of key-value pairs. -/
abbrev Table := List (Key × Value)

/-- Point lookup in one table. -/
def tableGet : Table → Key → Option Value
  | [], _ => none
  | p :: rest, k => if p.1 = k then some p.2 else tableGet rest k

/-- Contents of a named table in the engine's data (empty if absent). -/
def lookupTable : List (String × Table) → String → Table
  | [], _ => []
  | p :: rest, t => if p.1 = t then p.2 else lookupTable rest t

/-- Update the named table's contents in place. -/
def updateTable : List (String × Table) → String → (Table → Table) → List (String × Table)
  | [], t, f => [(t, f [])]
  | p :: rest, t, f => if p.1 = t then (p.1, f p.2) :: rest else p :: updateTable rest t f

/-- Effect of one `WriteOperation` on its table's contents: `Put` upserts,
`Delete` removes if present, `DeleteRange` removes all keys in `[fr, toK)`. -/
def applyTableOp (ps : Table) : WriteOperation → Table
  | .Put _ k v => ps.filter (fun p => !(decide (p.1 = k))) ++ [(k, v)]
  | .Delete _ k => ps.filter (fun p => !(decide (p.1 = k)))
  | .DeleteRange _ fr toK => ps.filter (fun p => !(inRange fr toK p.1))

/-- Modelled from the spec: the repository's concrete `StorageEngine`
implementation (the in-memory reference engine of spec §2/§4.1) is not under
`src/`. State is a set of pre-declared table names plus per-table contents. -/
structure MemoryEngine where
  tables : List String
  data : List (String × Table)
deriving DecidableEq, Repr

/-- A freshly initialized engine with the given declared tables, all empty. -/
def MemoryEngine.new (ts : List String) : MemoryEngine :=
  { tables := ts, data := ts.map (fun t => (t, [])) }

/-- Apply one write operation to the engine state. -/
def MemoryEngine.applyOp (eng : MemoryEngine) (op : WriteOperation) : MemoryEngine :=
  { eng with data := updateTable eng.data op.table (fun ps => applyTableOp ps op) }

/-- Embeds `StorageEngine::get`: point lookup; `TableNotFound` on an undeclared table,
`none` (success) on an absent key. -/
def MemoryEngine.get (eng : MemoryEngine) (t : String) (k : Key) :
    Except EngineError (Option Value) :=
  if t ∈ eng.tables then .ok (tableGet (lookupTable eng.data t) k)
  else .error .tableNotFound

/-- Embeds `StorageEngine::get_multi`: batched point lookup, one entry per input key. -/
def MemoryEngine.get_multi (eng : MemoryEngine) (t : String) (ks : List Key) :
    Except EngineError (List (Option Value)) :=
  if t ∈ eng.tables then .ok (ks.map (tableGet (lookupTable eng.data t)))
  else .error .tableNotFound

/-- Embeds `StorageEngine::get_all`: full-table scan. -/
def MemoryEngine.get_all (eng : MemoryEngine) (t : String) :
    Except EngineError Table :=
  if t ∈ eng.tables then .ok (lookupTable eng.data t)
  else .error .tableNotFound

/-- Modelled from the spec: `StorageEngine::write_batch` per §4.1: the batch is
applied atomically, in order; if any operation references an undeclared table
the call fails with `TableNotFound` and the state is unchanged. The `sync`
flag only controls durability timing and has no effect on the resulting state. -/
def MemoryEngine.write_batch (eng : MemoryEngine) (ops : List WriteOperation)
    (sync : Bool) : MemoryEngine × Except EngineError Unit :=
  if ops.all (fun op => decide (op.table ∈ eng.tables)) then
    (ops.foldl MemoryEngine.applyOp eng, .ok ())
  else (eng, .error .tableNotFound)

/-- Length-prefixed encoding of one key-value pair into the snapshot stream. -/
def encodePair (p : Key × Value) : List Nat :=
  (p.1.length :: p.1) ++ (p.2.length :: p.2)

/-- Length-prefixed encoding of one table's contents. -/
def encodeTableData (ps : Table) : List Nat :=
  ps.length :: (ps.map encodePair).flatten

/-- Modelled from the spec: `StorageEngine::snapshot` serializes the whole
dataset as an ordered byte stream (spec §3 SnapshotStream, §6 wire format);
tables are emitted in declaration order. -/
def MemoryEngine.snapshot (eng : MemoryEngine) : List Nat :=
  (eng.tables.map (fun t => encodeTableData (lookupTable eng.data t))).flatten

/-- Take exactly `n` bytes from the stream, failing if it is too short. -/
def takeBytes : Nat → List Nat → Option (List Nat × List Nat)
  | 0, s => some ([], s)
  | _ + 1, [] => none
  | n + 1, b :: s =>
    match takeBytes n s with
    | none => none
    | some (bs, rest) => some (b :: bs, rest)

/-- Decode `n` length-prefixed key-value pairs from the stream. -/
def decodePairs : Nat → List Nat → Option (Table × List Nat)
  | 0, s => some ([], s)
  | _ + 1, [] => none
  | n + 1, klen :: s =>
    match takeBytes klen s with
    | none => none
    | some (k, s1) =>
      match s1 with
      | [] => none
      | vlen :: s2 =>
        match takeBytes vlen s2 with
        | none => none
        | some (v, s3) =>
          match decodePairs n s3 with
          | none => none
          | some (ps, rest) => some ((k, v) :: ps, rest)

/-- Decode one table's contents per declared table, in declaration order. -/
def decodeTables : List String → List Nat → Option (List (String × Table) × List Nat)
  | [], s => some ([], s)
  | _ :: _, [] => none
  | t :: ts, n :: s =>
    match decodePairs n s with
    | none => none
    | some (ps, s1) =>
      match decodeTables ts s1 with
      | none => none
      | some (d, rest) => some ((t, ps) :: d, rest)

/-- The stream fails to decode as a complete snapshot for this engine's
declared tables: it is malformed or truncated (or has trailing garbage). -/
def snapshotMalformed (eng : MemoryEngine) (s : List Nat) : Bool :=
  match decodeTables eng.tables s with
  | some (_, []) => false
  | _ => true

/-- Modelled from the spec: `StorageEngine::apply_snapshot` replaces the entire
state with the one encoded in the stream; on a malformed or truncated stream it
fails with `UnderlyingError` (the error named by its doc comment in
`engine_api.rs`) and leaves the old state intact (spec §4.1: never a
partially-applied mixture). -/
def MemoryEngine.apply_snapshot (eng : MemoryEngine) (s : List Nat) :
    MemoryEngine × Except EngineError Unit :=
  match decodeTables eng.tables s with
  | some (d, []) => ({ eng with data := d }, .ok ())
  | some (_, _ :: _) => (eng, .error .underlyingError)
  | none => (eng, .error .underlyingError)

/-- Does the operation affect key `k` of table `t`? (`DeleteRange` touches
every key of its table in `[fr, toK)`.) -/
def touches : WriteOperation → String → Key → Bool
  | .Put t' k' _, t, k => decide (t' = t) && decide (k' = k)
  | .Delete t' k', t, k => decide (t' = t) && decide (k' = k)
  | .DeleteRange t' fr toK, t, k => decide (t' = t) && inRange fr toK k

/-- Embeds `LogEntry` from `src/curp/src/log_entry.rs`: fields in declaration order
`term`, `index`, `cmd`; the `Arc<C>` command handle is modelled as the shared
value itself. -/
structure LogEntry (C : Type) where
  term : Nat
  index : Nat
  cmd : C

/-- Embeds `LogEntry::new` from `src/curp/src/log_entry.rs`: takes `(index, term, cmd)`
and builds `Self { term, index, cmd }` by field name. -/
def LogEntry.new {C : Type} (index : Nat) (term : Nat) (cmd : C) : LogEntry C :=
  { term := term, index := index, cmd := cmd }

/-- Modelled from the spec: the consensus layer that constructs the `LogEntry`
sequence for one log (spec §3, §6) is not under `src/`. A log has a base index
and an entry list; entries are only ever created by appending. -/
structure LogState (C : Type) where
  base : Nat
  entries : List (LogEntry C)

/-- A log with no entries, starting at the given base index. -/
def LogState.empty {C : Type} (base : Nat) : LogState C :=
  { base := base, entries := [] }

/-- Term of the last entry (0 for an empty log). -/
def LogState.lastTerm {C : Type} (s : LogState C) : Nat :=
  match s.entries.getLast? with
  | some e => e.term
  | none => 0

/-- Modelled from the spec: the consensus layer appends an accepted command at
the next contiguous index with its current term, which never decreases (spec §3
LogEntry invariants); an entry with a stale term is never appended. -/
def LogState.append {C : Type} (s : LogState C) (term : Nat) (cmd : C) : LogState C :=
  if s.lastTerm ≤ term then
    { s with entries := s.entries ++ [LogEntry.new (s.base + s.entries.length) term cmd] }
  else s

/-- The log produced by a sequence of append requests `(term, cmd)`. -/
def LogState.build {C : Type} (base : Nat) (reqs : List (Nat × C)) : LogState C :=
  reqs.foldl (fun s r => s.append r.1 r.2) (LogState.empty base)

/-- Well-formedness of a log: entry indices are exactly `base, base+1, ...`
and terms form a non-decreasing chain. -/
def logWF {C : Type} (s : LogState C) : Prop :=
  s.entries.map LogEntry.index = List.range' s.base s.entries.length ∧
  s.entries.Chain' (fun a b => a.term ≤ b.term)

/-- The engine state produced by restoring engine `A`'s snapshot on a freshly
initialized engine declaring the same tables. -/
def restoredEngine (A : MemoryEngine) : MemoryEngine :=
  { tables := A.tables, data := A.tables.map (fun t => (t, lookupTable A.data t)) }

/-- A small concrete engine used by witnesses: table "t" holding `[2] ↦ [20]`. -/
def exampleEngine : MemoryEngine :=
  ((MemoryEngine.new ["t"]).write_batch [.Put "t" [2] [20]] false).1

/-! ## Helper lemmas: table-level operations -/

theorem tableGet_filter_not (q : Key → Bool) (ps : Table) (k : Key) :
    tableGet (ps.filter (fun p => !(q p.1))) k
      = if q k then none else tableGet ps k := by
  induction ps with
  | nil => simp [tableGet]
  | cons p rest ih =>
    by_cases hq : q p.1
    · have hf : (p :: rest).filter (fun p => !(q p.1)) = rest.filter (fun p => !(q p.1)) := by
        simp [List.filter_cons, hq]
      rw [hf, ih]
      by_cases hk : q k
      · simp [hk]
      · have hne : p.1 ≠ k := fun h => hk (h ▸ hq)
        simp [hk, tableGet, hne]
    · have hq' : q p.1 = false := by simpa using hq
      have hf : (p :: rest).filter (fun p => !(q p.1))
          = p :: rest.filter (fun p => !(q p.1)) := by
        simp [List.filter_cons, hq']
      rw [hf]
      by_cases hk : p.1 = k
      · subst hk
        simp [tableGet, hq']
      · simp [tableGet, hk, ih]

theorem tableGet_append (l₁ l₂ : Table) (k : Key) :
    tableGet (l₁ ++ l₂) k = (tableGet l₁ k).or (tableGet l₂ k) := by
  induction l₁ with
  | nil => simp [tableGet]
  | cons p rest ih =>
    by_cases h : p.1 = k <;> simp [tableGet, h, ih]

theorem tableGet_put (ps : Table) (t : String) (k : Key) (v : Value) (q : Key) :
    tableGet (applyTableOp ps (.Put t k v)) q
      = if q = k then some v else tableGet ps q := by
  unfold applyTableOp
  rw [tableGet_append, tableGet_filter_not (fun x => decide (x = k))]
  by_cases h : q = k
  · simp [h, tableGet]
  · simp [h, tableGet, Ne.symm h]

theorem tableGet_delete (ps : Table) (t : String) (k : Key) (q : Key) :
    tableGet (applyTableOp ps (.Delete t k)) q
      = if q = k then none else tableGet ps q := by
  unfold applyTableOp
  rw [tableGet_filter_not (fun x => decide (x = k))]
  by_cases h : q = k <;> simp [h]

theorem tableGet_delete_range (ps : Table) (t : String) (fr toK : Key) (q : Key) :
    tableGet (applyTableOp ps (.DeleteRange t fr toK)) q
      = if inRange fr toK q then none else tableGet ps q := by
  unfold applyTableOp
  rw [tableGet_filter_not (fun x => inRange fr toK x)]

theorem lookupTable_updateTable_self (d : List (String × Table)) (t : String)
    (f : Table → Table) :
    lookupTable (updateTable d t f) t = f (lookupTable d t) := by
  induction d with
  | nil => simp [updateTable, lookupTable]
  | cons p rest ih =>
    by_cases h : p.1 = t <;> simp [updateTable, lookupTable, h, ih]

theorem lookupTable_updateTable_ne (d : List (String × Table)) (t t' : String)
    (f : Table → Table) (h : t' ≠ t) :
    lookupTable (updateTable d t f) t' = lookupTable d t' := by
  induction d with
  | nil => simp [updateTable, lookupTable, Ne.symm h]
  | cons p rest ih =>
    by_cases hp : p.1 = t
    · subst hp
      simp [updateTable, lookupTable, Ne.symm h]
    · simp only [updateTable, if_neg hp]
      by_cases hp' : p.1 = t' <;> simp [lookupTable, hp', ih]

theorem lookupTable_map (ts : List String) (g : String → Table) (t : String) :
    lookupTable (ts.map (fun u => (u, g u))) t = if t ∈ ts then g t else [] := by
  induction ts with
  | nil => simp [lookupTable]
  | cons u ts ih =>
    by_cases h : u = t
    · subst h
      simp [lookupTable]
    · simp [lookupTable, h, ih, Ne.symm h]

/-! ## Helper lemmas: engine-level operations -/

theorem applyOp_tables (eng : MemoryEngine) (op : WriteOperation) :
    (eng.applyOp op).tables = eng.tables := rfl

theorem lookup_applyOp (eng : MemoryEngine) (op : WriteOperation) (t : String) :
    lookupTable (eng.applyOp op).data t
      = if op.table = t then applyTableOp (lookupTable eng.data t) op
        else lookupTable eng.data t := by
  by_cases h : op.table = t
  · subst h
    simp [MemoryEngine.applyOp, lookupTable_updateTable_self]
  · simp [MemoryEngine.applyOp, h, lookupTable_updateTable_ne _ _ _ _ (Ne.symm h)]

theorem foldl_applyOp_tables (ops : List WriteOperation) (eng : MemoryEngine) :
    (ops.foldl MemoryEngine.applyOp eng).tables = eng.tables := by
  induction ops generalizing eng with
  | nil => rfl
  | cons op rest ih => rw [List.foldl_cons, ih, applyOp_tables]

theorem lookup_foldl_ne (ops : List WriteOperation) (eng : MemoryEngine) (t : String)
    (h : ∀ op ∈ ops, op.table ≠ t) :
    lookupTable (ops.foldl MemoryEngine.applyOp eng).data t = lookupTable eng.data t := by
  induction ops generalizing eng with
  | nil => rfl
  | cons op rest ih =>
    rw [List.foldl_cons, ih _ (fun o ho => h o (List.mem_cons_of_mem _ ho)),
      lookup_applyOp, if_neg (h op (List.mem_cons_self _ _))]

theorem tableGet_applyOp_untouched (eng : MemoryEngine) (op : WriteOperation)
    (t : String) (k : Key) (h : touches op t k = false) :
    tableGet (lookupTable (eng.applyOp op).data t) k
      = tableGet (lookupTable eng.data t) k := by
  rw [lookup_applyOp]
  by_cases ht : op.table = t
  · rw [if_pos ht]
    cases op with
    | Put t' k' v =>
      simp only [WriteOperation.table] at ht
      subst ht
      simp [touches] at h
      rw [tableGet_put, if_neg (fun hk => h hk.symm)]
    | Delete t' k' =>
      simp only [WriteOperation.table] at ht
      subst ht
      simp [touches] at h
      rw [tableGet_delete, if_neg (fun hk => h hk.symm)]
    | DeleteRange t' fr toK =>
      simp only [WriteOperation.table] at ht
      subst ht
      simp [touches] at h
      rw [tableGet_delete_range, if_neg (by simp [h])]
  · rw [if_neg ht]

theorem tableGet_foldl_untouched (ops : List WriteOperation) (eng : MemoryEngine)
    (t : String) (k : Key) (h : ∀ op ∈ ops, touches op t k = false) :
    tableGet (lookupTable (ops.foldl MemoryEngine.applyOp eng).data t) k
      = tableGet (lookupTable eng.data t) k := by
  induction ops generalizing eng with
  | nil => rfl
  | cons op rest ih =>
    rw [List.foldl_cons, ih _ (fun o ho => h o (List.mem_cons_of_mem _ ho)),
      tableGet_applyOp_untouched _ _ _ _ (h op (List.mem_cons_self _ _))]

/-! ## Helper lemmas: snapshot codec round-trip -/

theorem takeBytes_append (k rest : List Nat) :
    takeBytes k.length (k ++ rest) = some (k, rest) := by
  induction k with
  | nil => rfl
  | cons b bs ih => simp [takeBytes, ih]

theorem decodePairs_encode (ps : Table) (rest : List Nat) :
    decodePairs ps.length ((ps.map encodePair).flatten ++ rest) = some (ps, rest) := by
  induction ps generalizing rest with
  | nil => rfl
  | cons p tl ih =>
    simp only [List.map_cons, List.flatten_cons, List.length_cons, encodePair,
      List.cons_append, decodePairs]
    simp only [List.append_eq, List.append_assoc, List.cons_append]
    rw [takeBytes_append]
    simp only []
    rw [takeBytes_append]
    simp only []
    rw [ih]

theorem decodeTables_encode (ts : List String) (g : String → Table) (rest : List Nat) :
    decodeTables ts ((ts.map (fun t => encodeTableData (g t))).flatten ++ rest)
      = some (ts.map (fun t => (t, g t)), rest) := by
  induction ts generalizing rest with
  | nil => rfl
  | cons t tl ih =>
    simp only [List.map_cons, List.flatten_cons, encodeTableData, List.cons_append,
      decodeTables]
    simp only [List.append_eq, List.append_assoc, List.cons_append]
    rw [decodePairs_encode]
    simp only []
    have ih' := ih rest
    simp only [encodeTableData] at ih'
    rw [ih']

theorem decode_snapshot (A : MemoryEngine) :
    decodeTables A.tables A.snapshot
      = some (A.tables.map (fun t => (t, lookupTable A.data t)), []) := by
  have h := decodeTables_encode A.tables (fun t => lookupTable A.data t) []
  simpa [MemoryEngine.snapshot] using h

/-! ## Helper lemmas: log construction invariant -/

theorem logWF_empty {C : Type} (base : Nat) : logWF (LogState.empty (C := C) base) := by
  constructor <;> simp [LogState.empty]

theorem append_base {C : Type} (s : LogState C) (term : Nat) (cmd : C) :
    (s.append term cmd).base = s.base := by
  unfold LogState.append
  split <;> rfl

theorem append_wf {C : Type} (s : LogState C) (term : Nat) (cmd : C) (h : logWF s) :
    logWF (s.append term cmd) := by
  unfold LogState.append
  split
  case isTrue hle =>
    constructor
    · simp only [List.map_append, List.length_append, List.map_cons, List.map_nil,
        List.length_cons, List.length_nil]
      rw [h.1]
      have : s.entries.length + (0 + 1) = s.entries.length + 1 := by omega
      rw [this, List.range'_concat]
      simp [LogEntry.new]
    · rw [List.chain'_append]
      refine ⟨h.2, List.chain'_singleton _, ?_⟩
      intro x hx y hy
      simp only [List.head?_cons, Option.mem_def, Option.some.injEq] at hy
      subst hy
      have hterm : s.lastTerm = x.term := by
        simp [LogState.lastTerm, Option.mem_def.mp hx]
      simp only [LogEntry.new]
      omega
  case isFalse => exact h

theorem build_steps_wf {C : Type} (reqs : List (Nat × C)) (s : LogState C) (h : logWF s) :
    logWF (reqs.foldl (fun s r => s.append r.1 r.2) s) ∧
      (reqs.foldl (fun s r => s.append r.1 r.2) s).base = s.base := by
  induction reqs generalizing s with
  | nil => exact ⟨h, rfl⟩
  | cons r rest ih =>
    have h1 := append_wf s r.1 r.2 h
    have h2 := ih _ h1
    exact ⟨h2.1, h2.2.trans (append_base s r.1 r.2)⟩

/-! ## Claim theorems -/

/-- Claim C1: `write_batch` is atomic — if every operation's table is declared,
the whole batch is applied in order; if any operation references an undeclared
table, the call fails with `TableNotFound` and the engine state is unchanged
(no operation takes effect), even across different tables. -/
theorem write_batch_atomicity :
    ∀ (eng : MemoryEngine) (ops : List WriteOperation) (sync : Bool),
      ((∃ op ∈ ops, op.table ∉ eng.tables) →
        eng.write_batch ops sync = (eng, .error .tableNotFound)) ∧
      ((∀ op ∈ ops, op.table ∈ eng.tables) →
        eng.write_batch ops sync = (ops.foldl MemoryEngine.applyOp eng, .ok ())) := by
  intro eng ops sync
  constructor
  · rintro ⟨op, hop, hnot⟩
    have hcond : ops.all (fun op => decide (op.table ∈ eng.tables)) = false := by
      rw [Bool.eq_false_iff]
      intro hall
      rw [List.all_eq_true] at hall
      exact hnot (by simpa using hall op hop)
    unfold MemoryEngine.write_batch
    simp [hcond]
  · intro hall
    have hcond : ops.all (fun op => decide (op.table ∈ eng.tables)) = true := by
      rw [List.all_eq_true]
      intro op hop
      simpa using hall op hop
    unfold MemoryEngine.write_batch
    simp [hcond]

/-- Witness for C1: a batch naming undeclared table "u" fails without effect;
a batch on declared table "t" is fully applied. -/
theorem write_batch_atomicity_witness :
    (MemoryEngine.new ["t"]).write_batch [.Put "u" [1] [2]] false
        = (MemoryEngine.new ["t"], .error .tableNotFound) ∧
      (MemoryEngine.new ["t"]).write_batch [.Put "t" [1] [2]] true
        = ([WriteOperation.Put "t" [1] [2]].foldl MemoryEngine.applyOp
            (MemoryEngine.new ["t"]), .ok ()) :=
  ⟨(write_batch_atomicity (MemoryEngine.new ["t"]) [.Put "u" [1] [2]] false).1
      ⟨.Put "u" [1] [2], by simp, by decide⟩,
    (write_batch_atomicity (MemoryEngine.new ["t"]) [.Put "t" [1] [2]] true).2
      (by decide)⟩

/-- Claim C2: `DeleteRange {table, fr, toK}` removes exactly the keys in the
half-open interval `[fr, toK)` (`fr` inclusive, `toK` exclusive); concretely,
the batch `[Put(t,"a","1"), Put(t,"b","2"), Put(t,"c","3"), DeleteRange(t,"a","c")]`
leaves exactly the pair `("c","3")` in table `t` (byte strings: "a"=[97],
"b"=[98], "c"=[99], "1"=[49], "2"=[50], "3"=[51]). -/
theorem delete_range_half_open :
    (∀ (eng : MemoryEngine) (t : String) (fr toK k : Key), t ∈ eng.tables →
      (eng.applyOp (.DeleteRange t fr toK)).get t k
        = if inRange fr toK k then .ok none else eng.get t k) ∧
    ((MemoryEngine.new ["t"]).write_batch
        [.Put "t" [97] [49], .Put "t" [98] [50], .Put "t" [99] [51],
          .DeleteRange "t" [97] [99]] false).1.get_all "t" = .ok [([99], [51])] := by
  constructor
  · intro eng t fr toK k ht
    have hl : lookupTable (eng.applyOp (.DeleteRange t fr toK)).data t
        = applyTableOp (lookupTable eng.data t) (.DeleteRange t fr toK) := by
      rw [lookup_applyOp]
      exact if_pos rfl
    simp only [MemoryEngine.get, applyOp_tables, if_pos ht, hl, tableGet_delete_range]
    by_cases hr : inRange fr toK k <;> simp [hr]
  · rfl

/-- Witness for C2: the general half-open bound applied at table "t",
range `[[97], [99])`, key `[97]`. -/
theorem delete_range_half_open_witness :
    ((MemoryEngine.new ["t"]).applyOp (.DeleteRange "t" [97] [99])).get "t" [97]
      = if inRange [97] [99] [97] then .ok none
        else (MemoryEngine.new ["t"]).get "t" [97] :=
  delete_range_half_open.1 (MemoryEngine.new ["t"]) "t" [97] [99] [97] (by decide)

/-- Counterexample for C6: on the malformed stream `[5]` (a count prefix with a
truncated body), `apply_snapshot` surfaces `EngineError.underlyingError` — the
very same condition as generic underlying-storage errors, not a distinct one
(as also documented on the trait: `apply_snapshot` returns `UnderlyingError`
when it meets errors). -/
theorem apply_snapshot_error_not_distinct :
    (MemoryEngine.new ["t"]).apply_snapshot [5]
      = (MemoryEngine.new ["t"], .error .underlyingError) := rfl

/-- Claim C6 (amended): on every malformed or truncated input stream,
`apply_snapshot` fails with the generic underlying-storage error
(`UnderlyingError`) and leaves the engine in the old consistent state — never a
partially-applied mixture. -/
theorem apply_snapshot_malformed_atomic :
    ∀ (eng : MemoryEngine) (s : List Nat), snapshotMalformed eng s = true →
      eng.apply_snapshot s = (eng, .error .underlyingError) := by
  intro eng s h
  unfold snapshotMalformed at h
  unfold MemoryEngine.apply_snapshot
  cases hd : decodeTables eng.tables s with
  | none => rfl
  | some p =>
    obtain ⟨d, rest⟩ := p
    cases rest with
    | nil =>
      rw [hd] at h
      simp at h
    | cons a rest' => rfl

/-- Witness for C6's amended claim: the truncated stream `[7]` is malformed and
is rejected with the old state intact. -/
theorem apply_snapshot_malformed_atomic_witness :
    snapshotMalformed (MemoryEngine.new ["t"]) [7] = true ∧
      (MemoryEngine.new ["t"]).apply_snapshot [7]
        = (MemoryEngine.new ["t"], .error .underlyingError) :=
  ⟨rfl, apply_snapshot_malformed_atomic (MemoryEngine.new ["t"]) [7] rfl⟩

/-- Claim C10: `LogEntry::new(index, term, cmd)` assigns each argument to its
like-named field, even though the argument order `(index, term)` differs from
the field declaration order `(term, index)`. -/
theorem log_entry_new_fields :
    ∀ (C : Type) (i t : Nat) (c : C),
      (LogEntry.new i t c).index = i ∧ (LogEntry.new i t c).term = t ∧
        (LogEntry.new i t c).cmd = c :=
  fun _ _ _ _ => ⟨rfl, rfl, rfl⟩

/-- Claim C3: within one batch, operations are applied in order — the last
`Put`/`Delete` touching a key determines its final state (for any prefix
`ops₁` and any suffix `ops₂` of operations not touching the key), and a
`DeleteRange` whose range covers a key that a later operation in the same
batch re-`Put`s leaves the later `Put`'s value standing. -/
theorem batch_order_last_write_wins :
    ∀ (eng : MemoryEngine) (ops₁ ops₂ : List WriteOperation) (t : String) (k : Key),
      t ∈ eng.tables →
      (∀ op ∈ ops₂, touches op t k = false) →
      (∀ v, ((ops₁ ++ .Put t k v :: ops₂).foldl MemoryEngine.applyOp eng).get t k
          = .ok (some v)) ∧
      (((ops₁ ++ .Delete t k :: ops₂).foldl MemoryEngine.applyOp eng).get t k
          = .ok none) ∧
      (∀ (fr toK : Key) (v : Value) (sync : Bool),
        ((eng.write_batch [.DeleteRange t fr toK, .Put t k v] sync).1).get t k
          = .ok (some v)) := by
  intro eng ops₁ ops₂ t k ht h₂
  have hget : ∀ (op : WriteOperation) (eng' : MemoryEngine),
      (ops₂.foldl MemoryEngine.applyOp (eng'.applyOp op)).get t k
        = if t ∈ eng'.tables then
            .ok (tableGet (lookupTable (eng'.applyOp op).data t) k)
          else .error .tableNotFound := by
    intro op eng'
    simp only [MemoryEngine.get, foldl_applyOp_tables, applyOp_tables]
    by_cases hmem : t ∈ eng'.tables
    · rw [if_pos hmem, if_pos hmem, tableGet_foldl_untouched _ _ _ _ h₂]
    · rw [if_neg hmem, if_neg hmem]
  have hmem₁ : t ∈ (ops₁.foldl MemoryEngine.applyOp eng).tables := by
    rw [foldl_applyOp_tables]
    exact ht
  refine ⟨?_, ?_, ?_⟩
  · intro v
    rw [List.foldl_append, List.foldl_cons, hget, if_pos hmem₁]
    have hl : lookupTable
          ((ops₁.foldl MemoryEngine.applyOp eng).applyOp (.Put t k v)).data t
        = applyTableOp (lookupTable (ops₁.foldl MemoryEngine.applyOp eng).data t)
            (.Put t k v) := by
      rw [lookup_applyOp]
      exact if_pos rfl
    rw [hl, tableGet_put, if_pos rfl]
  · rw [List.foldl_append, List.foldl_cons, hget, if_pos hmem₁]
    have hl : lookupTable
          ((ops₁.foldl MemoryEngine.applyOp eng).applyOp (.Delete t k)).data t
        = applyTableOp (lookupTable (ops₁.foldl MemoryEngine.applyOp eng).data t)
            (.Delete t k) := by
      rw [lookup_applyOp]
      exact if_pos rfl
    rw [hl, tableGet_delete, if_pos rfl]
  · intro fr toK v sync
    have hall : ([.DeleteRange t fr toK, .Put t k v] : List WriteOperation).all
        (fun op => decide (op.table ∈ eng.tables)) = true := by
      simp [WriteOperation.table, ht]
    unfold MemoryEngine.write_batch
    rw [if_pos hall]
    simp only [List.foldl_cons, List.foldl_nil, MemoryEngine.get, applyOp_tables]
    rw [if_pos ht]
    have hl : lookupTable
          (((eng.applyOp (.DeleteRange t fr toK)).applyOp (.Put t k v))).data t
        = applyTableOp (lookupTable (eng.applyOp (.DeleteRange t fr toK)).data t)
            (.Put t k v) := by
      rw [lookup_applyOp]
      exact if_pos rfl
    rw [hl, tableGet_put, if_pos rfl]

/-- Witness for C3: a single-`Put` batch on a declared table leaves the `Put`
value readable. -/
theorem batch_order_last_write_wins_witness :
    (([] ++ WriteOperation.Put "t" [1] [9] :: []).foldl MemoryEngine.applyOp
        (MemoryEngine.new ["t"])).get "t" [1] = .ok (some [9]) :=
  (batch_order_last_write_wins (MemoryEngine.new ["t"]) [] [] "t" [1]
    (by decide) (by decide)).1 [9]

/-- Claim C4: restoring the snapshot of any engine `A` onto a freshly
initialized engine with the same declared tables succeeds and yields a state
whose `get_all`, for every table, equals `A`'s — in particular the returned
key-value pairs agree as sets. -/
theorem snapshot_roundtrip :
    ∀ (A : MemoryEngine),
      (MemoryEngine.new A.tables).apply_snapshot A.snapshot
          = (restoredEngine A, .ok ()) ∧
      (∀ t, (restoredEngine A).get_all t = A.get_all t) ∧
      (∀ t l₁ l₂, (restoredEngine A).get_all t = .ok l₁ → A.get_all t = .ok l₂ →
        ∀ kv, kv ∈ l₁ ↔ kv ∈ l₂) := by
  intro A
  have hdec := decode_snapshot A
  have happly : (MemoryEngine.new A.tables).apply_snapshot A.snapshot
      = (restoredEngine A, .ok ()) := by
    unfold MemoryEngine.apply_snapshot
    have hts : (MemoryEngine.new A.tables).tables = A.tables := rfl
    rw [hts, hdec]
    rfl
  have hall : ∀ t, (restoredEngine A).get_all t = A.get_all t := by
    intro t
    simp only [MemoryEngine.get_all, restoredEngine]
    by_cases hmem : t ∈ A.tables
    · rw [if_pos hmem, if_pos hmem, lookupTable_map, if_pos hmem]
    · rw [if_neg hmem, if_neg hmem]
  refine ⟨happly, hall, ?_⟩
  intro t l₁ l₂ h₁ h₂ kv
  rw [hall t, h₂] at h₁
  cases h₁
  rfl

/-- Witness for C4: round-trip on the one-entry engine; the pair `([2], [20])`
is in both `get_all` results. -/
theorem snapshot_roundtrip_witness :
    (MemoryEngine.new exampleEngine.tables).apply_snapshot exampleEngine.snapshot
        = (restoredEngine exampleEngine, .ok ()) ∧
      (([2], [20]) ∈ ([([2], [20])] : Table) ↔ ([2], [20]) ∈ ([([2], [20])] : Table)) :=
  ⟨(snapshot_roundtrip exampleEngine).1,
    (snapshot_roundtrip exampleEngine).2.2 "t" [([2], [20])] [([2], [20])]
      rfl rfl ([2], [20])⟩

/-- Claim C5: for a declared table, `get_multi` returns exactly one entry per
input key, in input order: position `i` of the result is precisely what the
point lookup `get` returns for key `i` (so `none` exactly at absent keys);
concretely, with only `[2]` present, `get_multi` of `[[1],[2],[3]]` returns
`[none, some v, none]` in that order. -/
theorem get_multi_order_preserving :
    (∀ (eng : MemoryEngine) (t : String) (ks : List Key), t ∈ eng.tables →
      eng.get_multi t ks
          = .ok (ks.map (fun k => tableGet (lookupTable eng.data t) k)) ∧
        (ks.map (fun k => tableGet (lookupTable eng.data t) k)).length = ks.length ∧
        (∀ i (hi : i < ks.length)
            (hr : i < (ks.map (fun k => tableGet (lookupTable eng.data t) k)).length),
          .ok ((ks.map (fun k => tableGet (lookupTable eng.data t) k)).get ⟨i, hr⟩)
            = eng.get t (ks.get ⟨i, hi⟩))) ∧
    exampleEngine.get_multi "t" [[1], [2], [3]] = .ok [none, some [20], none] := by
  constructor
  · intro eng t ks ht
    refine ⟨by simp [MemoryEngine.get_multi, ht], List.length_map _ _, ?_⟩
    intro i hi hr
    rw [List.get_map]
    simp [MemoryEngine.get, ht]
  · rfl

/-- Witness for C5: the general shape applied to the one-entry engine. -/
theorem get_multi_order_preserving_witness :
    exampleEngine.get_multi "t" [[1], [2], [3]]
      = .ok ([[1], [2], [3]].map
          (fun k => tableGet (lookupTable exampleEngine.data "t") k)) :=
  (get_multi_order_preserving.1 exampleEngine "t" [[1], [2], [3]] (by decide)).1

/-- Claim C7: for every sequence of `LogEntry` values constructed for one log,
the indices are exactly `base, base+1, ...` (unique, contiguous, strictly
increasing from the log's base index) and the term is non-decreasing as the
index increases. -/
theorem log_entry_invariants :
    ∀ (C : Type) (base : Nat) (reqs : List (Nat × C)),
      (LogState.build base reqs).entries.map LogEntry.index
          = List.range' base (LogState.build base reqs).entries.length ∧
        (LogState.build base reqs).entries.Pairwise
          (fun a b => a.index < b.index ∧ a.term ≤ b.term) := by
  intro C base reqs
  have h := build_steps_wf reqs (LogState.empty base) (logWF_empty base)
  have hwf : logWF (LogState.build base reqs) := h.1
  have hbase : (LogState.build base reqs).base = base := h.2
  obtain ⟨hidx, hchain⟩ := hwf
  rw [hbase] at hidx
  refine ⟨hidx, ?_⟩
  have hterm : (LogState.build base reqs).entries.Pairwise
      (fun a b => a.term ≤ b.term) := by
    haveI : IsTrans (LogEntry C) (fun a b => a.term ≤ b.term) :=
      ⟨fun _ _ _ h1 h2 => le_trans h1 h2⟩
    exact List.chain'_iff_pairwise.mp hchain
  have hlt : (LogState.build base reqs).entries.Pairwise
      (fun a b => a.index < b.index) := by
    have hr : ((LogState.build base reqs).entries.map LogEntry.index).Pairwise
        (· < ·) := by
      rw [hidx]
      exact List.pairwise_lt_range' _ _
    exact List.pairwise_map.mp hr
  exact hlt.and hterm

/-- Claim C8: a batch whose operations all reference table `t1` never changes
what `get` or `get_all` observe on any other table `t2`. -/
theorem table_isolation :
    ∀ (eng : MemoryEngine) (ops : List WriteOperation) (sync : Bool) (t1 t2 : String),
      t2 ≠ t1 → (∀ op ∈ ops, op.table = t1) →
      (∀ k, ((eng.write_batch ops sync).1).get t2 k = eng.get t2 k) ∧
      ((eng.write_batch ops sync).1).get_all t2 = eng.get_all t2 := by
  intro eng ops sync t1 t2 hne hops
  unfold MemoryEngine.write_batch
  by_cases hc : ops.all (fun op => decide (op.table ∈ eng.tables)) = true
  · rw [if_pos hc]
    have hts : (ops.foldl MemoryEngine.applyOp eng).tables = eng.tables :=
      foldl_applyOp_tables _ _
    have hlk : lookupTable (ops.foldl MemoryEngine.applyOp eng).data t2
        = lookupTable eng.data t2 := by
      refine lookup_foldl_ne _ _ _ (fun op hop => ?_)
      rw [hops op hop]
      exact Ne.symm hne
    constructor
    · intro k
      simp only [MemoryEngine.get, hts, hlk]
    · simp only [MemoryEngine.get_all, hts, hlk]
  · rw [if_neg hc]
    exact ⟨fun k => rfl, rfl⟩

/-- Witness for C8: a `Put` on table "a" leaves `get`/`get_all` on table "b"
unchanged. -/
theorem table_isolation_witness :
    (((MemoryEngine.new ["a", "b"]).write_batch [.Put "a" [1] [2]] false).1.get "b" [1]
        = (MemoryEngine.new ["a", "b"]).get "b" [1]) ∧
      ((MemoryEngine.new ["a", "b"]).write_batch [.Put "a" [1] [2]] false).1.get_all "b"
        = (MemoryEngine.new ["a", "b"]).get_all "b" := by
  have h := table_isolation (MemoryEngine.new ["a", "b"]) [.Put "a" [1] [2]] false
    "a" "b" (by decide) (by decide)
  exact ⟨h.1 [1], h.2⟩
